import Mathlib

/-!
Verification of the `local-prompt-agent` RAG engine specification and of the
web UI script `src/local_prompt_agent/web/static/js/app.js`.

The RAG engine (Chunker, ContextAssembler, RAGOrchestrator, EmbeddingEngine,
VectorStore, RetrievalPlanner) is described in the repository's specification
documents but its implementation is not present in the source tree, so those
components are modelled from the spec, faithfully to the spec's words.
Document text is modelled as `List Char`; content hashes are modelled by the
content itself (a content hash is a deterministic fingerprint of the text,
idealised as injective).

The web UI functions (`sendMessage`, `handleInput`, `toggleTheme`) are
embedded directly from `app.js`, with the relevant fragment of DOM state
made explicit as a record.
-/

namespace RAG

/-- Modelled from the spec: the `ChunkError` taxonomy.  The spec lists only
`InvalidConfig` (for example overlap greater than or equal to chunk_size,
rejected before processing). -/
inductive ChunkError where
  | InvalidConfig
deriving DecidableEq, Repr

/-- Modelled from the spec: a Chunk has a sequence_index, char_start/char_end
span, and its text.  (id, document_id, page_number and content_hash play no
role in the chunker claims and are omitted.) -/
structure Chunk where
  seqIndex : Nat
  charStart : Nat
  charEnd : Nat
  text : List Char
deriving DecidableEq, Repr

/-- Modelled from the spec: the Fixed strategy's sliding window, as a
fuel-indexed recursion (the fuel is the document length, which bounds the
number of windows whenever overlap < chunk_size).  Each step emits the next
`size`-character window starting at `pos` and advances by `size - overlap`;
the final window is whatever remains once at most `size` characters are left.
The spec's small word-boundary back-off window is left unspecified by the
spec and is not modelled; it adjusts boundaries without changing coverage. -/
def chunkAux (size overlap : Nat) : Nat → Nat → Nat → List Char → List Chunk
  | _, _, _, [] => []
  | 0, pos, idx, l => [⟨idx, pos, pos + l.length, l⟩]
  | fuel + 1, pos, idx, l =>
    if l.length ≤ size then [⟨idx, pos, pos + l.length, l⟩]
    else ⟨idx, pos, pos + size, l.take size⟩ ::
      chunkAux size overlap fuel (pos + (size - overlap)) (idx + 1) (l.drop (size - overlap))

/-- Modelled from the spec: `chunk(document, strategy, chunk_size, overlap)`
for the Fixed strategy.  A configuration with `overlap >= chunk_size` is
rejected with `ChunkError.InvalidConfig` at configuration validation, before
any processing. -/
def chunk (doc : List Char) (size overlap : Nat) : Except ChunkError (List Chunk) :=
  if size ≤ overlap then Except.error ChunkError.InvalidConfig
  else Except.ok (chunkAux size overlap doc.length 0 0 doc)

/-- The de-overlapped concatenation of chunk texts: every chunk but the last
keeps only its first `keep = size - overlap` characters (the trailing
`overlap` characters are the overlap region repeated at the head of the next
chunk); the last chunk is kept whole.  This is the "union of chunk spans,
minus overlap regions" of the coverage law. -/
def recon (keep : Nat) : List (List Char) → List Char
  | [] => []
  | [c] => c
  | c :: c2 :: cs => c.take keep ++ recon keep (c2 :: cs)

theorem chunkAux_ne_nil (size overlap fuel pos idx : Nat) (l : List Char) (hl : l ≠ []) :
    chunkAux size overlap fuel pos idx l ≠ [] := by
  obtain ⟨a, as, rfl⟩ := List.exists_cons_of_ne_nil hl
  cases fuel with
  | zero => simp [chunkAux]
  | succ n =>
    rw [chunkAux]
    case x_4 => simp
    split <;> simp

theorem recon_chunkAux (size overlap : Nat) (hov : overlap < size) :
    ∀ (fuel pos idx : Nat) (l : List Char), l.length ≤ fuel →
      recon (size - overlap) ((chunkAux size overlap fuel pos idx l).map Chunk.text) = l := by
  intro fuel
  induction fuel with
  | zero =>
    intro pos idx l hl
    have : l = [] := List.eq_nil_of_length_eq_zero (Nat.le_zero.mp hl)
    subst this
    simp [chunkAux, recon]
  | succ n ih =>
    intro pos idx l hl
    cases l with
    | nil => simp [chunkAux, recon]
    | cons a as =>
      rw [chunkAux]
      case x_4 => simp
      by_cases hlen : (a :: as).length ≤ size
      · rw [if_pos hlen]
        simp [recon]
      · rw [if_neg hlen]
        push_neg at hlen
        have hstep : 0 < size - overlap := Nat.sub_pos_of_lt hov
        have hdrop_ne : (a :: as).drop (size - overlap) ≠ [] := by
          intro hcon
          have := List.drop_eq_nil_iff.mp hcon
          omega
        have hrec_ne := chunkAux_ne_nil size overlap n (pos + (size - overlap)) (idx + 1)
          ((a :: as).drop (size - overlap)) hdrop_ne
        have hdl : ((a :: as).drop (size - overlap)).length ≤ n := by
          rw [List.length_drop]
          simp only [List.length_cons] at hl ⊢
          omega
        have hrec := ih (pos + (size - overlap)) (idx + 1) ((a :: as).drop (size - overlap)) hdl
        obtain ⟨r, rs, hr⟩ := List.exists_cons_of_ne_nil hrec_ne
        rw [hr] at hrec ⊢
        simp only [List.map_cons] at hrec
        simp only [List.map_cons, recon]
        rw [hrec]
        have htt : ((a :: as).take size).take (size - overlap) = (a :: as).take (size - overlap) := by
          rw [List.take_take]
          congr 1
          omega
        rw [htt, List.take_append_drop]

/-- The scenario document "ABCDEFGHIJ". -/
def sampleDoc : List Char := "ABCDEFGHIJ".toList

/-- C1: for every document and valid Fixed configuration (overlap < chunk_size),
the chunks returned by `chunk` cover the document: the union of chunk spans
minus overlap regions (each chunk with its trailing overlap removed, the last
kept whole) reconstructs the full document text exactly once; and on the
10-character text "ABCDEFGHIJ" with chunk_size = 4 and overlap = 1, `chunk`
returns exactly the 3 chunks spanning [0,4), [3,7), [6,10) — all 10 characters
covered, with a 1-character overlap between consecutive chunks. -/
theorem chunk_coverage (doc : List Char) (size overlap : Nat) (hov : overlap < size) :
    (∃ cs, chunk doc size overlap = Except.ok cs ∧
      recon (size - overlap) (cs.map Chunk.text) = doc) ∧
    chunk sampleDoc 4 1 = Except.ok
      [⟨0, 0, 4, "ABCD".toList⟩, ⟨1, 3, 7, "DEFG".toList⟩, ⟨2, 6, 10, "GHIJ".toList⟩] := by
  constructor
  · refine ⟨chunkAux size overlap doc.length 0 0 doc, ?_, ?_⟩
    · rw [chunk, if_neg (by omega)]
    · exact recon_chunkAux size overlap hov doc.length 0 0 doc (Nat.le_refl _)
  · rfl

/-- Witness for `chunk_coverage` at the scenario input. -/
theorem chunk_coverage_witness :
    (∃ cs, chunk sampleDoc 4 1 = Except.ok cs ∧
      recon (4 - 1) (cs.map Chunk.text) = sampleDoc) ∧
    chunk sampleDoc 4 1 = Except.ok
      [⟨0, 0, 4, "ABCD".toList⟩, ⟨1, 3, 7, "DEFG".toList⟩, ⟨2, 6, 10, "GHIJ".toList⟩] :=
  chunk_coverage sampleDoc 4 1 (by decide)

/-- C7: `chunk` on an empty document returns the empty chunk sequence and no
error, and every configuration with overlap ≥ chunk_size is rejected with
`ChunkError.InvalidConfig` for every document, before any processing. -/
theorem chunk_empty_and_invalid (size overlap : Nat) :
    (overlap < size → chunk [] size overlap = Except.ok []) ∧
    (size ≤ overlap → ∀ doc : List Char, chunk doc size overlap =
      Except.error ChunkError.InvalidConfig) := by
  constructor
  · intro h
    rw [chunk, if_neg (by omega)]
    rfl
  · intro h doc
    rw [chunk, if_pos h]

/-- Witness for `chunk_empty_and_invalid`: empty document accepted at
(size, overlap) = (2, 1); config (1, 3) rejected on the sample document. -/
theorem chunk_empty_and_invalid_witness :
    chunk [] 2 1 = Except.ok [] ∧
    chunk sampleDoc 1 3 = Except.error ChunkError.InvalidConfig :=
  ⟨(chunk_empty_and_invalid 2 1).1 (by decide),
   (chunk_empty_and_invalid 1 3).2 (by decide) sampleDoc⟩

/-- Whether a character ends a sentence. -/
def isSentEnd (c : Char) : Bool := c == '.' || c == '!' || c == '?'

/-- The longest prefix of `l` that ends with a sentence-ending character
(empty if there is none): drop from the right end everything after the last
sentence boundary. -/
def sentCut (l : List Char) : List Char :=
  ((l.reverse.dropWhile fun c => !isSentEnd c).reverse)

/-- Modelled from the spec: truncation of an over-budget top chunk "at the
nearest sentence boundary not exceeding the limit" — cut to the budget, then
back to the last sentence boundary within it. -/
def truncateToBudget (l : List Char) (budget : Nat) : List Char :=
  sentCut (l.take budget)

/-- Total character length of a list of text blocks. -/
def totalLen (blocks : List (List Char)) : Nat := (blocks.map List.length).sum

/-- Modelled from the spec: the greedy packer — include chunks in rank order
while the running total stays within the budget, never splitting a chunk. -/
def packGreedy (budget : Nat) : Nat → List (List Char) → List (List Char)
  | _, [] => []
  | used, c :: cs =>
    if used + c.length ≤ budget then c :: packGreedy budget (used + c.length) cs
    else []

/-- Modelled from the spec: `AssembledContext` — ordered text blocks and the
truncated flag.  (The citation list mirrors the blocks one-for-one and plays
no role in the budget claims; it is modelled in the query path below.) -/
structure AssembledContext where
  blocks : List (List Char)
  truncated : Bool
deriving DecidableEq, Repr

/-- Modelled from the spec: `assemble(ranked_chunks, budget_chars)`.  If even
the top-ranked chunk alone exceeds the budget it is truncated at the nearest
sentence boundary not exceeding the limit and `truncated` is set; otherwise
chunks are included greedily in rank order within `budget_chars`. -/
def assemble (ranked : List (List Char)) (budget : Nat) : AssembledContext :=
  match ranked with
  | [] => ⟨[], false⟩
  | top :: rest =>
    if budget < top.length then ⟨[truncateToBudget top budget], true⟩
    else ⟨packGreedy budget 0 (top :: rest), false⟩

theorem sentCut_length_le (l : List Char) : (sentCut l).length ≤ l.length := by
  have h := List.dropWhile_sublist (l := l.reverse) (p := fun c => !isSentEnd c)
  have := h.length_le
  simpa [sentCut] using this

theorem packGreedy_le (budget : Nat) :
    ∀ (l : List (List Char)) (used : Nat), used ≤ budget →
      used + totalLen (packGreedy budget used l) ≤ budget := by
  intro l
  induction l with
  | nil => intro used hu; simpa [packGreedy, totalLen] using hu
  | cons c cs ih =>
    intro used hu
    rw [packGreedy]
    split
    · rename_i hfit
      have := ih (used + c.length) hfit
      simp only [totalLen, List.map_cons, List.sum_cons] at this ⊢
      omega
    · simpa [totalLen] using hu

theorem packGreedy_take (budget : Nat) :
    ∀ (l : List (List Char)) (used : Nat), ∃ k, packGreedy budget used l = l.take k := by
  intro l
  induction l with
  | nil => intro used; exact ⟨0, rfl⟩
  | cons c cs ih =>
    intro used
    rw [packGreedy]
    split
    · obtain ⟨k, hk⟩ := ih (used + c.length)
      exact ⟨k + 1, by simp [hk]⟩
    · exact ⟨0, rfl⟩

/-- A 40-character chunk for the budget scenario. -/
def chunk40 : List Char := List.replicate 40 'a'

/-- C2: `assemble` never exceeds the budget: the total text length of the
assembled blocks is at most `budget_chars`; the `truncated` flag is set
exactly when the top-ranked chunk alone exceeds the budget (in which case the
single block is that chunk cut at the last sentence boundary within the
budget); when not truncated the blocks are a prefix of the ranked list — the
greedy inclusion in rank order, never splitting a chunk; and with
`budget_chars = 100` and three ranked 40-character chunks the first two are
included (80 characters), the third is excluded, and `truncated = false`. -/
theorem assemble_budget (ranked : List (List Char)) (budget : Nat) :
    totalLen (assemble ranked budget).blocks ≤ budget ∧
    ((assemble ranked budget).truncated = true ↔
      ∃ top rest, ranked = top :: rest ∧ budget < top.length) ∧
    ((assemble ranked budget).truncated = false →
      ∃ k, (assemble ranked budget).blocks = ranked.take k) ∧
    assemble [chunk40, chunk40, chunk40] 100 = ⟨[chunk40, chunk40], false⟩ := by
  refine ⟨?_, ?_, ?_, by rfl⟩
  · cases ranked with
    | nil => simp [assemble, totalLen]
    | cons top rest =>
      rw [assemble]
      split
      · simp only [totalLen, List.map_cons, List.map_nil, List.sum_cons, List.sum_nil]
        have h1 := sentCut_length_le (top.take budget)
        have h2 : (top.take budget).length ≤ budget := by
          simp [List.length_take]
        simp only [truncateToBudget]
        omega
      · simpa using packGreedy_le budget (top :: rest) 0 (Nat.zero_le _)
  · cases ranked with
    | nil => simp [assemble]
    | cons top rest =>
      rw [assemble]
      split
      · rename_i hgt
        simp only [true_iff]
        exact ⟨top, rest, rfl, hgt⟩
      · rename_i hle
        simp only [Bool.false_eq_true, false_iff]
        rintro ⟨t, r, heq, hlt⟩
        cases heq
        exact hle hlt
  · cases ranked with
    | nil => intro _; exact ⟨0, rfl⟩
    | cons top rest =>
      rw [assemble]
      split
      · intro h; cases h
      · intro _
        exact packGreedy_take budget (top :: rest) 0

/-- Witness for `assemble_budget`'s truncated-false implication at the
scenario input. -/
theorem assemble_budget_witness :
    ∃ k, (assemble [chunk40, chunk40, chunk40] 100).blocks =
      [chunk40, chunk40, chunk40].take k :=
  (assemble_budget [chunk40, chunk40, chunk40] 100).2.2.1 (by rfl)

/-- Modelled from the spec: `IndexSummary{document_id, chunk_count, page_count}`. -/
structure IndexSummary where
  document_id : Nat
  chunk_count : Nat
  page_count : Nat
deriving DecidableEq, Repr

/-- Modelled from the spec: a Collection's registry of indexed documents — a
list of (content_hash, summary) pairs together with the next fresh document
id.  The content hash is modelled by the normalized content itself. -/
structure Collection where
  docs : List (List Char × IndexSummary)
  nextId : Nat
deriving DecidableEq, Repr

/-- Look up a content hash in the collection's registry. -/
def findByHash (c : Collection) (h : List Char) : Option IndexSummary :=
  (c.docs.find? fun p => p.1 == h).map Prod.snd

/-- Modelled from the spec: `index_document(source, config)`.  If a document
with the same content_hash already exists in the collection this is a no-op
returning the existing summary (idempotent ingestion); otherwise the content
is chunked (Fixed strategy) and registered under a fresh document id.  The
source here is single-page text, so `page_count` is 1. -/
def index_document (c : Collection) (content : List Char) (size overlap : Nat) :
    Collection × Except ChunkError IndexSummary :=
  match findByHash c content with
  | some s => (c, Except.ok s)
  | none =>
    match chunk content size overlap with
    | Except.error e => (c, Except.error e)
    | Except.ok cs =>
      let s : IndexSummary := ⟨c.nextId, cs.length, 1⟩
      (⟨c.docs ++ [(content, s)], c.nextId + 1⟩, Except.ok s)

/-- C3: `index_document` is idempotent on content: whenever a first call
succeeds with summary `s` and result collection `c'`, a second call with the
same content is a no-op — it returns the very same collection `c'` (store
size unchanged) and the same summary (same `document_id`, same
`chunk_count`); and if the registry held pairwise-distinct content hashes
before, it still does after, so no duplicate entry is ever created. -/
theorem index_document_idempotent (c : Collection) (content : List Char)
    (size overlap : Nat) (c' : Collection) (s : IndexSummary)
    (hfirst : index_document c content size overlap = (c', Except.ok s))
    (hnd : c.docs.Pairwise fun a b => a.1 ≠ b.1) :
    index_document c' content size overlap = (c', Except.ok s) ∧
    c'.docs.Pairwise fun a b => a.1 ≠ b.1 := by
  rcases hfind : findByHash c content with _ | s0
  · rw [index_document, hfind] at hfirst
    rcases hchunk : chunk content size overlap with e | cs
    · rw [hchunk] at hfirst
      simp at hfirst
    · rw [hchunk] at hfirst
      simp only [Prod.mk.injEq, Except.ok.injEq] at hfirst
      obtain ⟨hc', hs⟩ := hfirst
      have hnone : c.docs.find? (fun p => p.1 == content) = none := by
        have := hfind
        rw [findByHash] at this
        exact Option.map_eq_none.mp this
      have hall : ∀ p ∈ c.docs, ¬(p.1 == content) = true :=
        fun p hp => by
          have := List.find?_eq_none.mp hnone p hp
          simpa using this
      constructor
      · rw [index_document]
        have hfind' : findByHash c' content = some s := by
          rw [findByHash, ← hc']
          rw [List.find?_append, hnone]
          simp [hs]
        rw [hfind']
      · rw [← hc']
        simp only [List.pairwise_append]
        refine ⟨hnd, by simp, ?_⟩
        intro p hp q hq
        have := hall p hp
        simp only [List.mem_singleton] at hq
        subst hq
        simp only [ne_eq]
        intro hcon
        exact this (by simp [hcon])
  · rw [index_document, hfind] at hfirst
    simp only [Prod.mk.injEq, Except.ok.injEq] at hfirst
    obtain ⟨hc', hs⟩ := hfirst
    subst hc' hs
    refine ⟨?_, hnd⟩
    rw [index_document, hfind]

/-- Witness for `index_document_idempotent`: index "AB" into the empty
collection, then check the second call is a no-op with the same summary. -/
theorem index_document_idempotent_witness :
    index_document ⟨[("AB".toList, ⟨0, 1, 1⟩)], 1⟩ "AB".toList 2 0 =
      (⟨[("AB".toList, ⟨0, 1, 1⟩)], 1⟩, Except.ok ⟨0, 1, 1⟩) ∧
    (⟨[("AB".toList, ⟨0, 1, 1⟩)], 1⟩ : Collection).docs.Pairwise
      (fun a b => a.1 ≠ b.1) :=
  index_document_idempotent ⟨[], 0⟩ "AB".toList 2 0 _ _ (by rfl)
    (List.Pairwise.nil)

/-- Modelled from the spec: the `EmbeddingError` taxonomy. -/
inductive EmbError where
  | ModelUnavailable
  | Timeout
  | DimensionMismatch
deriving DecidableEq, Repr

/-- Modelled from the spec: the errors an ingestion run can surface. -/
inductive IngestError where
  | chunkErr (e : ChunkError)
  | embedErr (e : EmbError)
deriving DecidableEq, Repr

/-- Modelled from the spec: the VectorStore of one collection — entries of
(document_id, chunk sequence_index, vector). -/
structure VStore where
  entries : List (Nat × Nat × List Int)
deriving DecidableEq, Repr

/-- Modelled from the spec: `delete_by_document(document_id)` removes all
chunks of that document from the store. -/
def delete_by_document (st : VStore) (docId : Nat) : VStore :=
  ⟨st.entries.filter fun e => !(e.1 == docId)⟩

/-- Modelled from the spec: the Orchestrator's batch retry loop — the batch
call is retried up to `max_retries` attempts; the first success wins, and
after the final failed attempt its error is surfaced.  The embedder is a
function of the attempt number, so per-attempt outcomes (such as consecutive
timeouts) are expressible. -/
def embedWithRetry (embedder : Nat → Except EmbError (List (List Int))) :
    Nat → Nat → Except EmbError (List (List Int))
  | _, 0 => Except.error EmbError.Timeout
  | attempt, 1 => embedder attempt
  | attempt, k + 2 =>
    match embedder attempt with
    | Except.ok v => Except.ok v
    | Except.error _ => embedWithRetry embedder (attempt + 1) (k + 1)

/-- Modelled from the spec: the ingestion pipeline of `index_document` for a
fresh document — chunk, write the chunks to the store, embed with retries,
then attach the vectors.  Any stage failure moves the document to Failed,
which deletes the chunks/embeddings already written for it (atomic per
document) and aborts with the stage's error. -/
def ingest (st : VStore) (docId : Nat) (content : List Char)
    (size overlap maxRetries : Nat)
    (embedder : Nat → Except EmbError (List (List Int))) :
    VStore × Except IngestError IndexSummary :=
  match chunk content size overlap with
  | Except.error e => (st, Except.error (IngestError.chunkErr e))
  | Except.ok cs =>
    let st1 : VStore := ⟨st.entries ++ cs.map fun ch => (docId, ch.seqIndex, ([] : List Int))⟩
    match embedWithRetry embedder 0 maxRetries with
    | Except.error e => (delete_by_document st1 docId, Except.error (IngestError.embedErr e))
    | Except.ok vecs =>
      (⟨st.entries ++ (cs.zip vecs).map fun p => (docId, p.1.seqIndex, p.2)⟩,
        Except.ok ⟨docId, cs.length, 1⟩)

/-- C4: ingestion is atomic per document.  For a valid chunking config and a
document id not yet present in the store, if the embedding retry loop ends in
an error `e` (for instance a timeout on every attempt), then `ingest` fails
with `EmbeddingError` `e` and the resulting store is exactly the initial
store: every chunk written for that document has been deleted, so partial
indexing is never visible to queries. -/
theorem ingest_rollback (st : VStore) (docId : Nat) (content : List Char)
    (size overlap maxRetries : Nat)
    (embedder : Nat → Except EmbError (List (List Int))) (e : EmbError)
    (hov : overlap < size)
    (hemb : embedWithRetry embedder 0 maxRetries = Except.error e)
    (hfresh : ∀ x ∈ st.entries, x.1 ≠ docId) :
    ingest st docId content size overlap maxRetries embedder =
      (st, Except.error (IngestError.embedErr e)) := by
  have hchunk : chunk content size overlap =
      Except.ok (chunkAux size overlap content.length 0 0 content) := by
    rw [chunk, if_neg (by omega)]
  rw [ingest, hchunk]
  simp only [hemb]
  congr 1
  rw [delete_by_document]
  congr 1
  rw [List.filter_append]
  have h1 : st.entries.filter (fun x => !(x.1 == docId)) = st.entries := by
    apply List.filter_eq_self.mpr
    intro a ha
    simpa using hfresh a ha
  have h2 : ((chunkAux size overlap content.length 0 0 content).map
      fun ch => (docId, ch.seqIndex, ([] : List Int))).filter
        (fun x => !(x.1 == docId)) = [] := by
    apply List.filter_eq_nil_iff.mpr
    intro a ha
    simp only [List.mem_map] at ha
    obtain ⟨ch, _, rfl⟩ := ha
    simp
  rw [h1, h2, List.append_nil]

/-- Witness for `ingest_rollback`: the embedding call times out on all 3
attempts with `max_retries = 3`; `ingest` fails with a Timeout embedding
error and no chunks of the document remain in the (initially empty) store. -/
theorem ingest_rollback_witness :
    ingest ⟨[]⟩ 0 "ABCD".toList 3 1 3 (fun _ => Except.error EmbError.Timeout) =
      (⟨[]⟩, Except.error (IngestError.embedErr EmbError.Timeout)) :=
  ingest_rollback ⟨[]⟩ 0 "ABCD".toList 3 1 3 (fun _ => Except.error EmbError.Timeout)
    EmbError.Timeout (by decide) (by rfl) (by simp)

/-- Modelled from the spec: `QueryError{InvalidFilter}`. -/
inductive QueryError where
  | InvalidFilter
deriving DecidableEq, Repr

/-- Modelled from the spec: a transient `QueryResult` — chunk_id (the chunk
sequence_index), document_id, score and rank. -/
structure QueryResult where
  chunk_id : Nat
  document_id : Nat
  score : Int
  rank : Nat
deriving DecidableEq, Repr

/-- Integer dot product, the model of vector similarity.  (True cosine
similarity divides by the norms; the ranking claims settled here do not
depend on that normalisation.) -/
def dot : List Int → List Int → Int
  | a :: as, b :: bs => a * b + dot as bs
  | _, _ => 0

/-- Insert a candidate into a score-descending list. -/
def insertByScore (x : QueryResult) : List QueryResult → List QueryResult
  | [] => [x]
  | y :: ys => if y.score < x.score then x :: y :: ys else y :: insertByScore x ys

/-- Sort candidates by descending score (insertion sort). -/
def sortByScore : List QueryResult → List QueryResult
  | [] => []
  | x :: xs => insertByScore x (sortByScore xs)

/-- Modelled from the spec: `search(query_vector, top_k, filters)` — score
the entries passing the filter, rank by descending similarity, keep the top
`top_k`, and assign ranks in order. -/
def search (st : VStore) (qv : List Int) (topk : Nat)
    (filt : Nat × Nat × List Int → Bool) : List QueryResult :=
  let scored := (st.entries.filter filt).map fun e =>
    QueryResult.mk e.2.1 e.1 (dot qv e.2.2) 0
  ((sortByScore scored).take topk).enum.map fun p => { p.2 with rank := p.1 }

/-- Modelled from the spec: the result of `query` — ranked candidates,
the low_confidence flag, and citations (document_id, chunk_id) in inclusion
order. -/
structure QueryOutput where
  candidates : List QueryResult
  low_confidence : Bool
  citations : List (Nat × Nat)
deriving DecidableEq, Repr

/-- Modelled from the spec: `query(text, options)` — run retrieval, mark the
result low_confidence when there is no candidate or the best score falls
below the similarity threshold, and cite each included chunk.  An empty or
filter-empty result set is not an error. -/
def query (st : VStore) (qv : List Int) (topk : Nat) (threshold : Int)
    (filt : Nat × Nat × List Int → Bool) : Except QueryError QueryOutput :=
  let cands := search st qv topk filt
  let lowConf := match cands with
    | [] => true
    | c :: _ => decide (c.score < threshold)
  Except.ok ⟨cands, lowConf, cands.map fun c => (c.document_id, c.chunk_id)⟩

/-- C5: a query against an empty collection, or one whose filters match
nothing, is not an error: `search` returns the empty result, and `query`
returns `Except.ok` with an empty candidate list, `low_confidence = true`
and empty citations. -/
theorem query_empty_ok (qv : List Int) (topk : Nat) (threshold : Int)
    (filt : Nat × Nat × List Int → Bool) :
    search ⟨[]⟩ qv topk filt = [] ∧
    query ⟨[]⟩ qv topk threshold filt = Except.ok ⟨[], true, []⟩ ∧
    (∀ st : VStore, (∀ x ∈ st.entries, filt x = false) →
      query st qv topk threshold filt = Except.ok ⟨[], true, []⟩) := by
  refine ⟨by simp [search, sortByScore], by simp [query, search, sortByScore], ?_⟩
  intro st hf
  have hfe : st.entries.filter filt = [] := by
    apply List.filter_eq_nil_iff.mpr
    intro a ha
    simp [hf a ha]
  simp [query, search, hfe, sortByScore]

/-- Witness for `query_empty_ok` at a concrete filter-empty store. -/
theorem query_empty_ok_witness :
    query ⟨[(0, 0, [1, 1])]⟩ [1, 2] 3 0 (fun _ => false) = Except.ok ⟨[], true, []⟩ :=
  (query_empty_ok [1, 2] 3 0 (fun _ => false)).2.2 ⟨[(0, 0, [1, 1])]⟩ (by simp)

/-- Modelled from the spec: the content-addressed embedding cache, keyed by
(content_hash, model_id); the content hash is modelled by the text itself. -/
def lookupCache (cache : List ((List Char × Nat) × List Int)) (t : List Char)
    (mid : Nat) : Option (List Int) :=
  (cache.find? fun p => p.1 == (t, mid)).map Prod.snd

/-- Whether a text misses the cache for a given model. -/
def isMiss (cache : List ((List Char × Nat) × List Int)) (mid : Nat)
    (t : List Char) : Bool :=
  (lookupCache cache t mid).isNone

/-- Split a list into consecutive batches of at most `b` elements (every
batch nonempty; `b = 0` degenerates to singleton batches). -/
def toBatches {α : Type} (b : Nat) : List α → List (List α)
  | [] => []
  | a :: as => (a :: as.take (b - 1)) :: toBatches b (as.drop (b - 1))
termination_by l => l.length
decreasing_by
  simp only [List.length_drop, List.length_cons]
  omega

/-- Merge cached vectors and fresh model results back into input order: walk
the input texts, taking a cached vector on a hit and consuming the next model
result on a miss. -/
def mergeBack (cache : List ((List Char × Nat) × List Int)) (mid : Nat) :
    List (List Char) → List (List Int) → List (List Int)
  | [], _ => []
  | t :: ts, rs =>
    match lookupCache cache t mid with
    | some v => v :: mergeBack cache mid ts rs
    | none =>
      match rs with
      | [] => []
      | r :: rs' => r :: mergeBack cache mid ts rs'

/-- Modelled from the spec: `embed(texts, model_id)` — look every text up by
(content_hash, model_id) in the cache, send only the misses to the underlying
model in batches of at most the configured batch size, and merge the model's
results back with the cached ones preserving the input order.  The underlying
model is a deterministic per-text function `modelFn` (a batch call maps it
over the batch). -/
def embed (cache : List ((List Char × Nat) × List Int))
    (modelFn : List Char → List Int) (batchSize : Nat)
    (texts : List (List Char)) (mid : Nat) : List (List Int) :=
  let misses := texts.filter (isMiss cache mid)
  let batches := toBatches batchSize misses
  let results := (batches.map fun bt => bt.map modelFn).flatten
  mergeBack cache mid texts results

theorem toBatches_flatten_of_le {α : Type} (b : Nat) :
    ∀ (n : Nat) (l : List α), l.length ≤ n → (toBatches b l).flatten = l := by
  intro n
  induction n with
  | zero =>
    intro l hl
    have : l = [] := List.eq_nil_of_length_eq_zero (Nat.le_zero.mp hl)
    subst this
    simp [toBatches]
  | succ m ih =>
    intro l hl
    cases l with
    | nil => simp [toBatches]
    | cons a as =>
      rw [toBatches]
      have hd : (as.drop (b - 1)).length ≤ m := by
        simp only [List.length_drop]
        simp only [List.length_cons] at hl
        omega
      rw [List.flatten_cons, ih (as.drop (b - 1)) hd]
      simp [List.take_append_drop]

theorem toBatches_flatten {α : Type} (b : Nat) (l : List α) :
    (toBatches b l).flatten = l :=
  toBatches_flatten_of_le b l.length l (Nat.le_refl _)

theorem toBatches_len_le {α : Type} (b : Nat) (hb : 0 < b) :
    ∀ (n : Nat) (l : List α), l.length ≤ n →
      ∀ bt ∈ toBatches b l, bt.length ≤ b := by
  intro n
  induction n with
  | zero =>
    intro l hl
    have : l = [] := List.eq_nil_of_length_eq_zero (Nat.le_zero.mp hl)
    subst this
    simp [toBatches]
  | succ m ih =>
    intro l hl bt hbt
    cases l with
    | nil => simp [toBatches] at hbt
    | cons a as =>
      rw [toBatches] at hbt
      rcases List.mem_cons.mp hbt with heq | hmem
      · subst heq
        simp only [List.length_cons, List.length_take]
        omega
      · have hd : (as.drop (b - 1)).length ≤ m := by
          simp only [List.length_drop]
          simp only [List.length_cons] at hl
          omega
        exact ih (as.drop (b - 1)) hd bt hmem

theorem mergeBack_cons (cache : List ((List Char × Nat) × List Int))
    (mid : Nat) (t : List Char) (ts : List (List Char)) (rs : List (List Int)) :
    mergeBack cache mid (t :: ts) rs =
      match lookupCache cache t mid with
      | some v => v :: mergeBack cache mid ts rs
      | none =>
        match rs with
        | [] => []
        | r :: rs' => r :: mergeBack cache mid ts rs' := rfl

theorem mergeBack_merge (cache : List ((List Char × Nat) × List Int))
    (mid : Nat) (modelFn : List Char → List Int) :
    ∀ texts : List (List Char),
      mergeBack cache mid texts ((texts.filter (isMiss cache mid)).map modelFn) =
        texts.map fun t => (lookupCache cache t mid).getD (modelFn t) := by
  intro texts
  induction texts with
  | nil => simp [mergeBack]
  | cons t ts ih =>
    rcases hc : lookupCache cache t mid with _ | v
    · have hmiss : isMiss cache mid t = true := by simp [isMiss, hc]
      rw [List.filter_cons_of_pos hmiss, List.map_cons, mergeBack_cons, hc]
      simp only [hc, Option.getD_none, List.map_cons]
      rw [ih]
    · have hhit : isMiss cache mid t = false := by simp [isMiss, hc]
      rw [List.filter_cons_of_neg (by simp [hhit]), mergeBack_cons, hc]
      simp only [hc, Option.getD_some, List.map_cons]
      rw [ih]

/-- C6: `embed(texts, model_id)` returns one vector per input text in input
order: the output is exactly the input list mapped through "cached vector if
the (content_hash, model_id) lookup hits, otherwise the model's vector", so
its length equals the number of inputs; only the cache misses are sent to the
model — the batches flatten back to exactly the misses in order — and for a
positive configured batch size every batch sent has at most that size. -/
theorem embed_cache_order (cache : List ((List Char × Nat) × List Int))
    (modelFn : List Char → List Int) (batchSize : Nat)
    (texts : List (List Char)) (mid : Nat) (hb : 0 < batchSize) :
    embed cache modelFn batchSize texts mid =
      (texts.map fun t => (lookupCache cache t mid).getD (modelFn t)) ∧
    (embed cache modelFn batchSize texts mid).length = texts.length ∧
    (toBatches batchSize (texts.filter (isMiss cache mid))).flatten =
      texts.filter (isMiss cache mid) ∧
    (∀ bt ∈ toBatches batchSize (texts.filter (isMiss cache mid)),
      bt.length ≤ batchSize) := by
  have hmain : embed cache modelFn batchSize texts mid =
      texts.map fun t => (lookupCache cache t mid).getD (modelFn t) := by
    rw [embed]
    have hres : ((toBatches batchSize (texts.filter (isMiss cache mid))).map
        fun bt => bt.map modelFn).flatten =
        (texts.filter (isMiss cache mid)).map modelFn := by
      rw [← List.map_flatten, toBatches_flatten]
    simp only [hres]
    exact mergeBack_merge cache mid modelFn texts
  refine ⟨hmain, ?_, toBatches_flatten batchSize _, ?_⟩
  · rw [hmain, List.length_map]
  · exact toBatches_len_le batchSize hb _ _ (Nat.le_refl _)

/-- Witness for `embed_cache_order`: one cached text and two misses, batch
size 2 — the output is per-input, in order: the cached vector for "A", the
model's vectors for "BB" and "CCC". -/
theorem embed_cache_order_witness :
    embed [(("A".toList, 7), [9])] (fun t => [(t.length : Int)]) 2
        ["A".toList, "BB".toList, "CCC".toList] 7 = [[9], [2], [3]] := by
  have h := (embed_cache_order [(("A".toList, 7), [9])]
    (fun t => [(t.length : Int)]) 2 ["A".toList, "BB".toList, "CCC".toList] 7
    (by decide)).1
  rw [h]
  rfl

end RAG

namespace WebUI

/-- JavaScript string whitespace, as far as `String.prototype.trim` is
concerned for the characters this UI handles. -/
def isWS (c : Char) : Bool := c == ' ' || c == '\t' || c == '\n' || c == '\r'

/-- The JavaScript `value.trim()`: remove leading and trailing whitespace. -/
def jsTrim (l : List Char) : List Char :=
  ((l.dropWhile isWS).reverse.dropWhile isWS).reverse

/-- The fragment of DOM and script state that `handleInput` and `sendMessage`
in `app.js` read and write: the textarea value, the textarea height
(`none` models the transient `'auto'`), the numeric part of the character
counter text `"N / 4000"`, the send button's disabled flag, the list of
messages appended to the `#messages` container, and whether the empty-state
panel is shown. -/
structure ChatState where
  inputValue : List Char
  inputHeightPx : Option Nat
  charCountShown : Nat
  sendDisabled : Bool
  messages : List (List Char)
  emptyStateVisible : Bool
deriving DecidableEq, Repr

/-- `sendMessage` from `app.js` (lines 75–95): trim the input; if the result
is empty, return with no effect at all.  Otherwise hide the empty state,
append the user message, clear the input (value, height back to `'auto'`,
counter to 0, button disabled) and send the trimmed message to the backend —
the returned `Option` is the request handed to `streamResponse`. -/
def sendMessage (s : ChatState) : ChatState × Option (List Char) :=
  let message := jsTrim s.inputValue
  if message.isEmpty then (s, none)
  else
    ({ inputValue := [],
       inputHeightPx := none,
       charCountShown := 0,
       sendDisabled := true,
       messages := s.messages ++ [message],
       emptyStateVisible := false }, some message)

/-- `handleInput` from `app.js` (lines 52–64): resize the textarea to
`min(scrollHeight, 200)` pixels, show the character count, and disable the
send button exactly when the trimmed value is empty.  The content's scroll
height is an input from the DOM. -/
def handleInput (s : ChatState) (scrollHeight : Nat) : ChatState :=
  { s with
    inputHeightPx := some (min scrollHeight 200),
    charCountShown := s.inputValue.length,
    sendDisabled := decide ((jsTrim s.inputValue).length = 0) }

/-- C8: whenever the message input's value trims to the empty string (it is
empty or whitespace-only), `sendMessage` returns immediately with no effect:
the state — message list, input value, everything — is unchanged and no
request is sent to the backend.  In particular a whitespace-only value
(every character whitespace) trims to empty and is a no-op. -/
theorem sendMessage_noop (s : ChatState) :
    (jsTrim s.inputValue = [] → sendMessage s = (s, none)) ∧
    ((∀ c ∈ s.inputValue, isWS c = true) → sendMessage s = (s, none)) := by
  constructor
  · intro h
    rw [sendMessage]
    simp [h]
  · intro h
    have ht : jsTrim s.inputValue = [] := by
      have h1 : s.inputValue.dropWhile isWS = [] := by
        rw [List.dropWhile_eq_nil_iff]
        exact h
      rw [jsTrim, h1]
      rfl
    rw [sendMessage]
    simp [ht]

/-- Witness for `sendMessage_noop` on a whitespace-only input value. -/
theorem sendMessage_noop_witness :
    sendMessage ⟨[' ', '\n', ' '], none, 3, false, [], true⟩ =
      (⟨[' ', '\n', ' '], none, 3, false, [], true⟩, none) :=
  (sendMessage_noop ⟨[' ', '\n', ' '], none, 3, false, [], true⟩).1 (by rfl)

/-- C9: after `handleInput`, the send button is disabled exactly when the
trimmed input value has length zero, and the textarea height is capped at the
minimum of the content's scroll height and 200 pixels. -/
theorem handleInput_spec (s : ChatState) (scrollHeight : Nat) :
    ((handleInput s scrollHeight).sendDisabled = true ↔
      (jsTrim ((handleInput s scrollHeight).inputValue)).length = 0) ∧
    (handleInput s scrollHeight).inputHeightPx = some (min scrollHeight 200) := by
  constructor
  · simp [handleInput]
  · rfl

/-- Witness for `handleInput_spec` at a concrete state and scroll height. -/
theorem handleInput_spec_witness :
    ((handleInput ⟨['h', 'i'], none, 0, true, [], true⟩ 350).sendDisabled = true ↔
      (jsTrim ((handleInput ⟨['h', 'i'], none, 0, true, [], true⟩ 350).inputValue)).length
        = 0) ∧
    (handleInput ⟨['h', 'i'], none, 0, true, [], true⟩ 350).inputHeightPx = some 200 :=
  handleInput_spec ⟨['h', 'i'], none, 0, true, [], true⟩ 350

/-- The theme-related fragment of DOM and script state that `toggleTheme` in
`app.js` reads and writes: the script's `currentTheme` variable, the
document's `data-theme` attribute, the `'theme'` entry of localStorage, and
the toggle button's text. -/
structure ThemeState where
  currentTheme : List Char
  dataTheme : List Char
  storedTheme : Option (List Char)
  toggleText : List Char
deriving DecidableEq, Repr

/-- `toggleTheme` from `app.js` (lines 213–218): `currentTheme` becomes
`'dark'` if it was `'light'` and `'light'` otherwise; the `data-theme`
attribute and the stored `'theme'` value are set to the new `currentTheme`,
and the button text to the matching icon. -/
def toggleTheme (s : ThemeState) : ThemeState :=
  let t := if s.currentTheme = "light".toList then "dark".toList else "light".toList
  { currentTheme := t,
    dataTheme := t,
    storedTheme := some t,
    toggleText := if t = "dark".toList then "🌞".toList else "🌓".toList }

/-- A theme state whose `currentTheme` is neither `'light'` nor `'dark'`
(as can arise from a foreign `'theme'` entry in localStorage, from which
`currentTheme` is initialised). -/
def strayThemeState : ThemeState := ⟨"blue".toList, "blue".toList, none, []⟩

/-- Counterexample to C10 as stated: `toggleTheme` is not an involution for
every starting value of `currentTheme` — starting from `'blue'`, two
consecutive calls yield `'dark'`, not `'blue'`. -/
theorem toggleTheme_not_involutive :
    (toggleTheme (toggleTheme strayThemeState)).currentTheme ≠
      strayThemeState.currentTheme := by
  decide

/-- C10 (amended): one `toggleTheme` call sets `currentTheme` to `'dark'` if
it was `'light'` and to `'light'` otherwise — in particular it flips any
value of the light/dark pair to the other — and after every call the
document's `data-theme` attribute and the stored `'theme'` value both equal
`currentTheme`; two consecutive calls restore the original value whenever the
starting value is `'light'` or `'dark'` (but not for stray starting
values). -/
theorem toggleTheme_spec (s : ThemeState) :
    ((toggleTheme s).currentTheme =
      (if s.currentTheme = "light".toList then "dark".toList else "light".toList)) ∧
    (toggleTheme s).dataTheme = (toggleTheme s).currentTheme ∧
    (toggleTheme s).storedTheme = some (toggleTheme s).currentTheme ∧
    (s.currentTheme = "light".toList ∨ s.currentTheme = "dark".toList →
      (toggleTheme (toggleTheme s)).currentTheme = s.currentTheme) := by
  refine ⟨rfl, rfl, rfl, ?_⟩
  rintro (h | h) <;> simp [toggleTheme, h]

/-- Witness for `toggleTheme_spec` starting from the `'light'` theme. -/
theorem toggleTheme_spec_witness :
    (toggleTheme (toggleTheme ⟨"light".toList, "light".toList, none, []⟩)).currentTheme =
      (⟨"light".toList, "light".toList, none, []⟩ : ThemeState).currentTheme :=
  (toggleTheme_spec ⟨"light".toList, "light".toList, none, []⟩).2.2.2 (Or.inl rfl)

end WebUI
